import Mathlib

/-!
# Verification of the Patrimo portfolio analytics core

A shallow embedding, in Lean 4, of the client-side portfolio analytics of the
Patrimo dashboard, together with proofs of the properties its specification
states.

The embedded code is:

* `usePortfolio` — the portfolio hook (`frontend/src/hooks/usePortfolio.js`):
  fetches a payload, sorts its asset list by descending performance, and
  exposes payload fields with `|| 0` / `|| []` defaults.
* `groupedAllocation` / `sortedAllocation` / `getAllocationColor` — the
  allocation grouper of `frontend/src/components/dashboard/PerformanceCard.jsx`:
  per-category value sums, percentages via `toFixed(1)`, value-descending sort
  with rank-indexed colors.
* `filteredAssets` / `sortedAssets` — the category filter and the
  performance/value/name sort of `PerformanceGrid.jsx`.

Modelling conventions:

* JavaScript numbers are embedded as `ℚ`.  The specification's numeric claims
  are stated "within floating rounding tolerance"; over `ℚ` the corresponding
  identities are exact.
* `Array.prototype.sort` (guaranteed stable since ES2019) with a consistent
  comparator `c` is embedded as `List.insertionSort` with the relation
  `fun a b => c a b ≤ 0`: a stable sort producing an order consistent with the
  comparator, which is exactly the observable contract of the source.
* `Number.prototype.toFixed(1)` is embedded as rounding to the nearest tenth,
  half away from the smaller value (`round1`).
* `String.prototype.localeCompare` is embedded as a concrete collation:
  case-insensitive (ASCII) primary ordering with raw code-point tiebreak.  The
  specification (Example 3) asks for "case-insensitive primary ordering, or
  document exact collation rule used"; this is the documented rule.
* The backend of the repository is a one-route greeting service: the
  `/portfolio` aggregation the hook consumes is not implemented anywhere in
  the repository.  Definitions in the `Agg` section are therefore modelled
  from the spec (§4.2) and are clearly marked as such.
-/

namespace Patrimo

open scoped List

/-! ## Data model -/

/-- One holding, as consumed by the frontend components: `category` is the
grouping key, `categoryShort` the optional explicit short label
(`asset.categoryShort`), `value` the current monetary value and `performance`
the externally supplied percentage change for the active period. -/
structure Asset where
  id : Nat
  name : String
  category : String
  categoryShort : Option String
  value : ℚ
  performance : ℚ
deriving Repr, DecidableEq

/-- One `{date, value}` point of `historicalData`. -/
structure HistoricalPoint where
  date : String
  value : ℚ
deriving Repr, DecidableEq

/-- The raw payload returned by the `/portfolio` fetch.  Every field is
optional: the hook must cope with a missing payload and with missing
fields. -/
structure PortfolioData where
  totalValue : Option ℚ
  totalPerformance : Option ℚ
  performanceValue : Option ℚ
  historicalData : Option (List HistoricalPoint)
  assets : Option (List Asset)
deriving Repr, DecidableEq

/-- The view-model returned by the `usePortfolio` hook. -/
structure PortfolioHook where
  assets : List Asset
  totalValue : ℚ
  totalPerformance : ℚ
  performanceValue : ℚ
  historicalData : List HistoricalPoint
deriving Repr, DecidableEq

/-! ## Numeric and string primitives -/

/-- Embedding of `Number.prototype.toFixed(1)` (read back as a number).
`toFixed` first splits off the sign and then rounds the magnitude to the
nearest tenth, ties toward the larger magnitude ("if there are two such n,
pick the larger n"). -/
def round1 (x : ℚ) : ℚ :=
  if x < 0 then -(((-x * 10 + 1 / 2).floor : ℚ) / 10)
  else ((x * 10 + 1 / 2).floor : ℚ) / 10

/-- ASCII lower-casing of a character, as performed by locale collation on the
ASCII range. -/
def lowerChar (c : Char) : Char :=
  if 65 ≤ c.toNat ∧ c.toNat ≤ 90 then Char.ofNat (c.toNat + 32) else c

/-- Lexicographic strict comparison of character sequences. -/
def lexLt : List Char → List Char → Bool
  | [], [] => false
  | [], _ :: _ => true
  | _ :: _, [] => false
  | a :: as, b :: bs => if a < b then true else if b < a then false else lexLt as bs

/-- ASCII lower-casing of a character sequence. -/
def lowerL (l : List Char) : List Char := l.map lowerChar

/-- Embedding of `String.prototype.localeCompare`: case-insensitive (ASCII)
primary ordering, raw code-point order as tiebreak.  Returns a negative,
zero or positive number exactly as the source comparator does. -/
def localeCompare (s t : String) : Int :=
  if lexLt (lowerL s.data) (lowerL t.data) then -1
  else if lexLt (lowerL t.data) (lowerL s.data) then 1
  else if lexLt s.data t.data then -1
  else if lexLt t.data s.data then 1
  else 0

/-- Embedding of `String.prototype.substring(0, 8)`: the first eight
characters. -/
def substring8 (s : String) : String := ⟨s.data.take 8⟩

/-! ## The `usePortfolio` hook (`frontend/src/hooks/usePortfolio.js`) -/

/-- The comparator `(a, b) => b.performance - a.performance` of the hook's
`useEffect`, as the relation "`a` may be placed before `b`", i.e.
`b.performance - a.performance ≤ 0`. -/
def perfDescB (a b : Asset) : Bool := decide (b.performance ≤ a.performance)

/-- Embedding of `x || 0` on an optional numeric payload field. -/
def orZero (x : Option ℚ) : ℚ := x.getD 0

/-- Embedding of `x || []` on an optional list payload field. -/
def orNil {α : Type} (x : Option (List α)) : List α := x.getD []

/-- The URL built by the hook: `` `/portfolio?period=${period}` ``.  The
period token is interpolated without any validation. -/
def portfolioRequestUrl (period : String) : String := "/portfolio?period=" ++ period

/-- Embedding of `usePortfolio`: given the fetched payload (or `none` when the
fetch produced no data), returns the hook's view-model.  The asset list is the
payload's list sorted by descending performance (the `useEffect`); the scalar
and list fields are the payload's fields with `|| 0` / `|| []` defaults. -/
def usePortfolio (p : Option PortfolioData) : PortfolioHook where
  assets :=
    match p with
    | some pd =>
      match pd.assets with
      | some l => l.insertionSort (fun a b => perfDescB a b = true)
      | none => []
    | none => []
  totalValue := orZero (p.bind PortfolioData.totalValue)
  totalPerformance := orZero (p.bind PortfolioData.totalPerformance)
  performanceValue := orZero (p.bind PortfolioData.performanceValue)
  historicalData := orNil (p.bind PortfolioData.historicalData)

/-! ## The allocation grouper (`PerformanceCard.jsx`) -/

/-- One entry of `allocationData` / `groupedAllocation`:
`{name, shortName, value, percentage}`. -/
structure AllocationItem where
  name : String
  shortName : String
  value : ℚ
  percentage : ℚ
deriving Repr, DecidableEq

/-- Embedding of `asset.categoryShort || asset.category?.substring(0, 8)`: the explicit
short label when supplied and truthy, otherwise the first eight characters of
the category. -/
def itemShort (a : Asset) : String :=
  match a.categoryShort with
  | some s => if s = "" then substring8 a.category else s
  | none => substring8 a.category

/-- One element of `allocationData`: the per-asset allocation entry, with the
percentage already passed through `toFixed(1)`. -/
def toItem (tv : ℚ) (a : Asset) : AllocationItem :=
  { name := a.category
    shortName := itemShort a
    value := a.value
    percentage := round1 (a.value / tv * 100) }

/-- Embedding of `allocationData`: the per-asset allocation entries. -/
def allocationData (assets : List Asset) (tv : ℚ) : List AllocationItem :=
  assets.map (toItem tv)

/-- The in-place update performed on an existing category entry:
`existingCategory.value += item.value` followed by recomputing
`existingCategory.percentage` from the updated value. -/
def bump (tv : ℚ) (item b : AllocationItem) : AllocationItem :=
  { b with
    value := b.value + item.value
    percentage := round1 ((b.value + item.value) / tv * 100) }

/-- Apply `f` to the first element satisfying `p` (the mutation of the result
of `acc.find(...)`). -/
def updateFirst (p : AllocationItem → Bool) (f : AllocationItem → AllocationItem) :
    List AllocationItem → List AllocationItem
  | [] => []
  | b :: bs => if p b then f b :: bs else b :: updateFirst p f bs

/-- One step of the `reduce` that groups `allocationData` by category name. -/
def addItem (tv : ℚ) (acc : List AllocationItem) (item : AllocationItem) :
    List AllocationItem :=
  if (acc.find? (fun c => c.name == item.name)).isSome then
    updateFirst (fun c => c.name == item.name) (bump tv item) acc
  else
    acc ++ [item]

/-- Embedding of `groupedAllocation`: group the per-asset entries by category name, summing
values and recomputing percentages. -/
def groupedAllocation (assets : List Asset) (tv : ℚ) : List AllocationItem :=
  (allocationData assets tv).foldl (addItem tv) []

/-- The fixed display palette of `getAllocationColor`. -/
def allocationColors : List String :=
  ["bg-blue-500", "bg-green-500", "bg-yellow-500", "bg-purple-500",
   "bg-red-500", "bg-indigo-500", "bg-pink-500", "bg-orange-500"]

/-- Embedding of `getAllocationColor(index)`, i.e. `colors[index % colors.length]`.  The index
is always reduced modulo the palette size, so the access is in bounds. -/
def getAllocationColor (index : Nat) : String :=
  allocationColors.getD (index % allocationColors.length) "bg-blue-500"

/-- The comparator `(a, b) => b.value - a.value` of the allocation sort, as
the relation "`a` may be placed before `b`". -/
def valueDescB (a b : AllocationItem) : Bool := decide (b.value ≤ a.value)

/-- The intermediate value of the `sortedAllocation` chain after `.sort` and
before `.map`: the grouped buckets sorted by descending value (stable). -/
def sortedBuckets (assets : List Asset) (tv : ℚ) : List AllocationItem :=
  (groupedAllocation assets tv).insertionSort (fun a b => valueDescB a b = true)

/-- A bucket with its assigned display color: `{...item, color}`. -/
structure ColoredBucket where
  name : String
  shortName : String
  value : ℚ
  percentage : ℚ
  color : String
deriving Repr, DecidableEq

/-- Embedding of `sortedAllocation`: the value-descending buckets, each extended with the
color of its 0-based rank. -/
def sortedAllocation (assets : List Asset) (tv : ℚ) : List ColoredBucket :=
  (sortedBuckets assets tv).mapIdx fun i b =>
    { name := b.name, shortName := b.shortName, value := b.value,
      percentage := b.percentage, color := getAllocationColor i }

/-! ## The grid filter and sorter (`PerformanceGrid.jsx`) -/

/-- Embedding of `filteredAssets`: keep every asset when the filter is `"all"`, otherwise
keep the assets of the selected category. -/
def filteredAssets (selectedCategory : String) (assets : List Asset) : List Asset :=
  assets.filter fun a => selectedCategory == "all" || a.category == selectedCategory

/-- The `switch (selectedSort)` comparator of `sortedAssets`, as the relation
"`a` may be placed before `b`" (comparator value `≤ 0`).  The `default` branch
returns `0`, hence the relation is always true there. -/
def sortLeB (selectedSort : String) (a b : Asset) : Bool :=
  if selectedSort = "performance" then decide (b.performance ≤ a.performance)
  else if selectedSort = "value" then decide (b.value ≤ a.value)
  else if selectedSort = "name" then decide (localeCompare a.name b.name ≤ 0)
  else true

/-- Embedding of `sortedAssets`: a stable sort of (a copy of) the working list under the
selected comparator. -/
def sortedAssets (selectedSort : String) (l : List Asset) : List Asset :=
  l.insertionSort (fun a b => sortLeB selectedSort a b = true)

/-! ## Specification-side characterization of the grouper

`groupedAllocation` is a left fold; the definitions below give its closed
form — the distinct categories in first-appearance order, each with the full
precision sum of its assets' values — and are proved equal to the source
embedding in `groupedAllocation_eq_groupBuckets` below. -/

/-- The distinct categories of an asset list, in order of first appearance. -/
def catsOf (assets : List Asset) : List String :=
  assets.foldl (fun acc a => if a.category ∈ acc then acc else acc ++ [a.category]) []

/-- The full-precision sum of the values of the assets of category `c`. -/
def catValue (assets : List Asset) (c : String) : ℚ :=
  ((assets.filter fun a => a.category == c).map Asset.value).sum

/-- The short label contributed by the first asset of category `c`. -/
def catShort (assets : List Asset) (c : String) : String :=
  match assets.find? (fun a => a.category == c) with
  | some a => itemShort a
  | none => ""

/-- The closed form of the bucket of category `c`. -/
def mkBucket (assets : List Asset) (tv : ℚ) (c : String) : AllocationItem :=
  { name := c
    shortName := catShort assets c
    value := catValue assets c
    percentage := round1 (catValue assets c / tv * 100) }

/-- The closed form of `groupedAllocation`. -/
def groupBuckets (assets : List Asset) (tv : ℚ) : List AllocationItem :=
  (catsOf assets).map (mkBucket assets tv)

/-! ## The aggregation engine, modelled from the spec

The `usePortfolio` hook consumes `totalValue`, `totalPerformance` and
`performanceValue` from the `/portfolio` payload.  The repository's backend is
a one-route greeting service: the computation that produces these fields is
not implemented anywhere in the repository. -/

/-- Modelled from the spec: the missing `/portfolio` backend computation of
`totalValue` (§4.2, "totalValue = sum(asset.value)"). -/
def totalValueAgg (assets : List Asset) : ℚ :=
  (assets.map Asset.value).sum

/-- Modelled from the spec: the missing `/portfolio` backend computation of
the aggregate performance value (§4.2,
"totalPerformanceValue = sum(asset.value * asset.performance / 100)"). -/
def totalPerformanceValueAgg (assets : List Asset) : ℚ :=
  (assets.map fun a => a.value * a.performance / 100).sum

/-- Modelled from the spec: the missing `/portfolio` backend computation of
the aggregate performance percentage (§4.2,
"totalPerformancePercent = totalPerformanceValue / totalValue * 100 when
totalValue > 0, else 0"). -/
def totalPerformancePercentAgg (assets : List Asset) : ℚ :=
  if 0 < totalValueAgg assets then
    totalPerformanceValueAgg assets / totalValueAgg assets * 100
  else 0

/-- The payload the spec-modelled aggregation engine produces for an asset
list (no historical series). -/
def aggPayload (assets : List Asset) : PortfolioData :=
  { totalValue := some (totalValueAgg assets)
    totalPerformance := some (totalPerformancePercentAgg assets)
    performanceValue := some (totalPerformanceValueAgg assets)
    historicalData := none
    assets := some assets }

/-! ## Rounding lemmas -/

/-- The executable `Rat.floor` agrees with the order-theoretic floor. -/
theorem rat_floor_cast (q : ℚ) : ((q.floor : ℤ) : ℚ) = ((⌊q⌋ : ℤ) : ℚ) := by
  rw [Rat.floor_def', ← Rat.floor_def]

/-- Rounding to one decimal moves a value by at most `1/20`. -/
theorem round1_sub_le (x : ℚ) : |round1 x - x| ≤ 1 / 20 := by
  have key : ∀ y : ℚ, |((y * 10 + 1 / 2).floor : ℚ) / 10 - y| ≤ 1 / 20 := by
    intro y
    have h1 : ((⌊y * 10 + 1 / 2⌋ : ℤ) : ℚ) ≤ y * 10 + 1 / 2 := Int.floor_le _
    have h2 : y * 10 + 1 / 2 - 1 < ((⌊y * 10 + 1 / 2⌋ : ℤ) : ℚ) := Int.sub_one_lt_floor _
    rw [rat_floor_cast, abs_le]
    constructor <;> linarith
  unfold round1
  split
  · have heq : -(((-x * 10 + 1 / 2).floor : ℚ) / 10) - x =
        -((((-x * 10 + 1 / 2).floor : ℚ) / 10) - (-x)) := by ring
    rw [heq, abs_neg]
    exact key (-x)
  · exact key x

/-- Summing one-decimal roundings moves the total by at most `1/20` per
entry. -/
theorem sum_map_round1_err (l : List ℚ) :
    |(l.map round1).sum - l.sum| ≤ l.length * (1 / 20) := by
  induction l with
  | nil => simp
  | cons x xs ih =>
    simp only [List.map_cons, List.sum_cons, List.length_cons]
    have habs : |round1 x + ((xs.map round1).sum) - (x + xs.sum)| ≤
        |round1 x - x| + |(xs.map round1).sum - xs.sum| := by
      have heq : round1 x + (xs.map round1).sum - (x + xs.sum) =
          (round1 x - x) + ((xs.map round1).sum - xs.sum) := by ring
      rw [heq]
      exact abs_add _ _
    have hlen : ((xs.length + 1 : ℕ) : ℚ) * (1 / 20) =
        (xs.length : ℚ) * (1 / 20) + 1 / 20 := by
      push_cast
      ring
    rw [hlen]
    have := round1_sub_le x
    linarith

/-- Pulling `· / T * k` out of a list sum. -/
theorem sum_map_div_mul (T k : ℚ) (l : List ℚ) :
    (l.map fun y => y / T * k).sum = l.sum / T * k := by
  induction l with
  | nil => simp
  | cons x xs ih =>
    simp only [List.map_cons, List.sum_cons, ih]
    ring

/-- Summing an indicator over a duplicate-free list containing the hit. -/
theorem sum_map_indicator (x : String) (v : ℚ) :
    ∀ cats : List String, cats.Nodup → x ∈ cats →
      (cats.map fun c => if x = c then v else 0).sum = v := by
  intro cats hnd hx
  induction cats with
  | nil => cases hx
  | cons c cs ih =>
    rcases List.mem_cons.mp hx with rfl | hx'
    · have hnotin : x ∉ cs := (List.nodup_cons.mp hnd).1
      simp only [List.map_cons, List.sum_cons, if_pos rfl]
      have : (cs.map fun c => if x = c then v else 0).sum = 0 := by
        apply List.sum_eq_zero
        intro y hy
        rcases List.mem_map.mp hy with ⟨c', hc', rfl⟩
        have : x ≠ c' := fun h => hnotin (h ▸ hc')
        simp [this]
      simp [this]
    · have hne : x ≠ c := fun h => (List.nodup_cons.mp hnd).1 (h ▸ hx')
      simp only [List.map_cons, List.sum_cons, if_neg hne]
      rw [ih (List.nodup_cons.mp hnd).2 hx']
      ring

/-! ## Order lemmas for the collation model -/

theorem lexLt_irrefl : ∀ x, lexLt x x = false
  | [] => rfl
  | a :: as => by simp [lexLt, lexLt_irrefl as]

/-- Unpack one comparison step of `lexLt` on cons cells. -/
theorem lexLt_cons_elim {a b : Char} {as bs : List Char}
    (h : lexLt (a :: as) (b :: bs) = true) :
    a < b ∨ (¬a < b ∧ ¬b < a ∧ lexLt as bs = true) := by
  by_cases hab : a < b
  · exact Or.inl hab
  · by_cases hba : b < a
    · simp [lexLt, hab, hba] at h
    · exact Or.inr ⟨hab, hba, by simpa [lexLt, hab, hba] using h⟩

theorem lexLt_trans : ∀ x y z, lexLt x y = true → lexLt y z = true → lexLt x z = true
  | [], [], _, h1, _ => by simp [lexLt] at h1
  | [], _ :: _, [], _, h2 => by simp [lexLt] at h2
  | [], _ :: _, _ :: _, _, _ => rfl
  | _ :: _, [], _, h1, _ => by simp [lexLt] at h1
  | _ :: _, _ :: _, [], _, h2 => by simp [lexLt] at h2
  | a :: as, b :: bs, c :: cs, h1, h2 => by
    rcases lexLt_cons_elim h1 with hab | ⟨hab, hba, t1⟩ <;>
      rcases lexLt_cons_elim h2 with hbc | ⟨hbc, hcb, t2⟩
    · simp [lexLt, lt_trans hab hbc]
    · have hbc' : b = c := le_antisymm (le_of_not_lt hcb) (le_of_not_lt hbc)
      rw [← hbc']
      simp [lexLt, hab]
    · have hab' : a = b := le_antisymm (le_of_not_lt hba) (le_of_not_lt hab)
      rw [hab']
      simp [lexLt, hbc]
    · have hab' : a = b := le_antisymm (le_of_not_lt hba) (le_of_not_lt hab)
      have hbc' : b = c := le_antisymm (le_of_not_lt hcb) (le_of_not_lt hbc)
      rw [hab', hbc']
      simp [lexLt, lt_irrefl, lexLt_trans as bs cs t1 t2]

theorem lexLt_eq_of_not : ∀ x y, lexLt x y = false → lexLt y x = false → x = y
  | [], [], _, _ => rfl
  | [], _ :: _, h1, _ => by simp [lexLt] at h1
  | _ :: _, [], _, h2 => by simp [lexLt] at h2
  | a :: as, b :: bs, h1, h2 => by
    by_cases hab : a < b
    · simp [lexLt, hab] at h1
    · by_cases hba : b < a
      · simp [lexLt, hba] at h2
      · have hchar : a = b := le_antisymm (le_of_not_lt hba) (le_of_not_lt hab)
        subst hchar
        have t1 : lexLt as bs = false := by simpa [lexLt, hab] using h1
        have t2 : lexLt bs as = false := by simpa [lexLt, hab] using h2
        rw [lexLt_eq_of_not as bs t1 t2]

/-- The working characterization of "`localeCompare` is nonpositive": strictly
below in the case-insensitive primary ordering, or equal there and at-or-below
in the raw tiebreak. -/
theorem localeCompare_nonpos_iff (s t : String) :
    localeCompare s t ≤ 0 ↔
      (lexLt (lowerL s.data) (lowerL t.data) = true ∨
        (lowerL s.data = lowerL t.data ∧
          (lexLt s.data t.data = true ∨ s.data = t.data))) := by
  unfold localeCompare
  by_cases h1 : lexLt (lowerL s.data) (lowerL t.data) = true
  · rw [if_pos h1]
    exact ⟨fun _ => Or.inl h1, fun _ => by norm_num⟩
  · rw [if_neg h1]
    by_cases h2 : lexLt (lowerL t.data) (lowerL s.data) = true
    · rw [if_pos h2]
      constructor
      · intro h
        exact absurd h (by norm_num)
      · rintro (h | ⟨heq, -⟩)
        · exact absurd h h1
        · rw [heq, lexLt_irrefl] at h2
          exact (Bool.false_ne_true h2).elim
    · rw [if_neg h2]
      have heq : lowerL s.data = lowerL t.data :=
        lexLt_eq_of_not _ _ (by simpa using h1) (by simpa using h2)
      by_cases h3 : lexLt s.data t.data = true
      · rw [if_pos h3]
        exact ⟨fun _ => Or.inr ⟨heq, Or.inl h3⟩, fun _ => by norm_num⟩
      · rw [if_neg h3]
        by_cases h4 : lexLt t.data s.data = true
        · rw [if_pos h4]
          constructor
          · intro h
            exact absurd h (by norm_num)
          · rintro (h | ⟨-, h | hd⟩)
            · exact absurd h h1
            · exact absurd h h3
            · rw [hd, lexLt_irrefl] at h4
              exact (Bool.false_ne_true h4).elim
        · rw [if_neg h4]
          have hd : s.data = t.data :=
            lexLt_eq_of_not _ _ (by simpa using h3) (by simpa using h4)
          exact ⟨fun _ => Or.inr ⟨heq, Or.inr hd⟩, fun _ => le_refl 0⟩

/-- The name comparator is total. -/
theorem localeCompare_nonpos_total (s t : String) :
    localeCompare s t ≤ 0 ∨ localeCompare t s ≤ 0 := by
  rw [localeCompare_nonpos_iff, localeCompare_nonpos_iff]
  by_cases h1 : lexLt (lowerL s.data) (lowerL t.data) = true
  · exact Or.inl (Or.inl h1)
  · by_cases h2 : lexLt (lowerL t.data) (lowerL s.data) = true
    · exact Or.inr (Or.inl h2)
    · have heq : lowerL s.data = lowerL t.data :=
        lexLt_eq_of_not _ _ (by simpa using h1) (by simpa using h2)
      by_cases h3 : lexLt s.data t.data = true
      · exact Or.inl (Or.inr ⟨heq, Or.inl h3⟩)
      · by_cases h4 : lexLt t.data s.data = true
        · exact Or.inr (Or.inr ⟨heq.symm, Or.inl h4⟩)
        · exact Or.inl (Or.inr ⟨heq, Or.inr
            (lexLt_eq_of_not _ _ (by simpa using h3) (by simpa using h4))⟩)

/-- The name comparator is transitive. -/
theorem localeCompare_nonpos_trans (s t u : String) :
    localeCompare s t ≤ 0 → localeCompare t u ≤ 0 → localeCompare s u ≤ 0 := by
  rw [localeCompare_nonpos_iff, localeCompare_nonpos_iff, localeCompare_nonpos_iff]
  rintro (h1 | ⟨he1, hi1⟩) (h2 | ⟨he2, hi2⟩)
  · exact Or.inl (lexLt_trans _ _ _ h1 h2)
  · rw [he2] at h1
    exact Or.inl h1
  · rw [← he1] at h2
    exact Or.inl h2
  · refine Or.inr ⟨he1.trans he2, ?_⟩
    rcases hi1 with h1 | h1 <;> rcases hi2 with h2 | h2
    · exact Or.inl (lexLt_trans _ _ _ h1 h2)
    · rw [← h2]
      exact Or.inl h1
    · rw [h1]
      exact Or.inl h2
    · exact Or.inr (h1.trans h2)

/-! ## Comparator lemmas -/

theorem perfDescB_trans (a b c : Asset) :
    perfDescB a b = true → perfDescB b c = true → perfDescB a c = true := by
  unfold perfDescB
  simp only [decide_eq_true_eq]
  exact fun h1 h2 => le_trans h2 h1

theorem perfDescB_total (a b : Asset) : perfDescB a b = true ∨ perfDescB b a = true := by
  unfold perfDescB
  simp only [decide_eq_true_eq]
  exact le_total b.performance a.performance

theorem valueDescB_trans (a b c : AllocationItem) :
    valueDescB a b = true → valueDescB b c = true → valueDescB a c = true := by
  unfold valueDescB
  simp only [decide_eq_true_eq]
  exact fun h1 h2 => le_trans h2 h1

theorem valueDescB_total (a b : AllocationItem) :
    valueDescB a b = true ∨ valueDescB b a = true := by
  unfold valueDescB
  simp only [decide_eq_true_eq]
  exact le_total b.value a.value

theorem sortLeB_trans (key : String) (a b c : Asset) :
    sortLeB key a b = true → sortLeB key b c = true → sortLeB key a c = true := by
  unfold sortLeB
  split_ifs <;> simp only [decide_eq_true_eq]
  · exact fun h1 h2 => le_trans h2 h1
  · exact fun h1 h2 => le_trans h2 h1
  · exact localeCompare_nonpos_trans a.name b.name c.name
  · exact fun _ _ => trivial

theorem sortLeB_total (key : String) (a b : Asset) :
    sortLeB key a b = true ∨ sortLeB key b a = true := by
  unfold sortLeB
  split_ifs <;> simp only [decide_eq_true_eq]
  · exact le_total b.performance a.performance
  · exact le_total b.value a.value
  · exact localeCompare_nonpos_total a.name b.name
  · exact Or.inl trivial

/-! ## Characterization of the grouper -/

theorem toItem_name (tv : ℚ) (a : Asset) : (toItem tv a).name = a.category := rfl

theorem mkBucket_name (assets : List Asset) (tv : ℚ) (c : String) :
    (mkBucket assets tv c).name = c := rfl

theorem catsOf_append_singleton (l : List Asset) (a : Asset) :
    catsOf (l ++ [a]) =
      if a.category ∈ catsOf l then catsOf l else catsOf l ++ [a.category] := by
  simp [catsOf, List.foldl_append]

theorem mem_foldl_cats (c : String) :
    ∀ (l : List Asset) (acc : List String),
      c ∈ l.foldl (fun acc a => if a.category ∈ acc then acc else acc ++ [a.category]) acc ↔
        c ∈ acc ∨ c ∈ l.map Asset.category := by
  intro l
  induction l with
  | nil => simp
  | cons a l ih =>
    intro acc
    simp only [List.foldl_cons, List.map_cons, List.mem_cons]
    rw [ih]
    by_cases h : a.category ∈ acc
    · rw [if_pos h]
      constructor
      · rintro (hc | hc)
        · exact Or.inl hc
        · exact Or.inr (Or.inr hc)
      · rintro (hc | rfl | hc)
        · exact Or.inl hc
        · exact Or.inl h
        · exact Or.inr hc
    · rw [if_neg h]
      simp only [List.mem_append, List.mem_singleton]
      constructor
      · rintro ((hc | rfl) | hc)
        · exact Or.inl hc
        · exact Or.inr (Or.inl rfl)
        · exact Or.inr (Or.inr hc)
      · rintro (hc | rfl | hc)
        · exact Or.inl (Or.inl hc)
        · exact Or.inl (Or.inr rfl)
        · exact Or.inr hc

theorem mem_catsOf (c : String) (l : List Asset) :
    c ∈ catsOf l ↔ c ∈ l.map Asset.category := by
  rw [catsOf, mem_foldl_cats]
  simp

theorem nodup_foldl_cats :
    ∀ (l : List Asset) (acc : List String), acc.Nodup →
      (l.foldl (fun acc a => if a.category ∈ acc then acc else acc ++ [a.category]) acc).Nodup := by
  intro l
  induction l with
  | nil => exact fun acc h => h
  | cons a l ih =>
    intro acc hacc
    simp only [List.foldl_cons]
    apply ih
    by_cases h : a.category ∈ acc
    · rwa [if_pos h]
    · rw [if_neg h]
      rw [List.nodup_append]
      exact ⟨hacc, List.nodup_singleton _, by simpa [List.disjoint_singleton] using h⟩

theorem nodup_catsOf (l : List Asset) : (catsOf l).Nodup :=
  nodup_foldl_cats l [] List.nodup_nil

theorem catValue_append_singleton (l : List Asset) (a : Asset) (c : String) :
    catValue (l ++ [a]) c = catValue l c + (if a.category = c then a.value else 0) := by
  by_cases h : a.category = c <;>
    simp [catValue, List.filter_append, h]

theorem catValue_of_not_mem (l : List Asset) (c : String)
    (h : c ∉ l.map Asset.category) : catValue l c = 0 := by
  have hfil : l.filter (fun a => a.category == c) = [] := by
    rw [List.filter_eq_nil_iff]
    intro a ha
    simp only [beq_iff_eq]
    intro hc
    exact h (List.mem_map.mpr ⟨a, ha, hc⟩)
  simp [catValue, hfil]

theorem catShort_append_of_mem (l : List Asset) (a : Asset) (c : String)
    (h : c ∈ l.map Asset.category) : catShort (l ++ [a]) c = catShort l c := by
  obtain ⟨x, hx, hxc⟩ := List.mem_map.mp h
  have hsome : (l.find? (fun a => a.category == c)).isSome := by
    rw [List.find?_isSome]
    exact ⟨x, hx, by simp [hxc]⟩
  obtain ⟨y, hy⟩ := Option.isSome_iff_exists.mp hsome
  simp [catShort, List.find?_append, hy]

theorem catShort_append_of_not_mem (l : List Asset) (a : Asset) (c : String)
    (h : c ∉ l.map Asset.category) :
    catShort (l ++ [a]) c = if a.category = c then itemShort a else "" := by
  have hnone : l.find? (fun a => a.category == c) = none := by
    rw [List.find?_eq_none]
    intro x hx
    simp only [beq_iff_eq]
    intro hxc
    exact h (List.mem_map.mpr ⟨x, hx, hxc⟩)
  by_cases hc : a.category = c
  · simp [catShort, List.find?_append, hnone, List.find?_cons, hc]
  · simp [catShort, List.find?_append, hnone, List.find?_cons, hc]

theorem updateFirst_map (g : String → AllocationItem) (hg : ∀ c, (g c).name = c)
    (f : AllocationItem → AllocationItem) (c : String) :
    ∀ cats : List String, cats.Nodup → c ∈ cats →
      updateFirst (fun b => b.name == c) f (cats.map g) =
        cats.map (fun c' => if c' = c then f (g c') else g c') := by
  intro cats
  induction cats with
  | nil => intro _ h; cases h
  | cons c0 cs ih =>
    intro hnd hc
    simp only [List.map_cons, updateFirst]
    by_cases h0 : c0 = c
    · subst h0
      rw [if_pos (by simp [hg])]
      rw [if_pos rfl]
      congr 1
      apply List.map_congr_left
      intro c' hc'
      have : c' ≠ c0 := fun h => (List.nodup_cons.mp hnd).1 (h ▸ hc')
      rw [if_neg this]
    · rw [if_neg (by simp [hg, h0])]
      rw [if_neg h0]
      congr 1
      exact ih (List.nodup_cons.mp hnd).2
        ((List.mem_cons.mp hc).resolve_left fun h => h0 h.symm)

/-- The central characterization: the left-fold grouper of the source equals
its closed form — one bucket per distinct category in first-appearance order,
carrying the full-precision value sum, the rounded percentage recomputed from
it, and the first asset's short label. -/
theorem groupedAllocation_eq_groupBuckets (assets : List Asset) (tv : ℚ) :
    groupedAllocation assets tv = groupBuckets assets tv := by
  induction assets using List.reverseRecOn with
  | nil => rfl
  | append_singleton l a ih =>
    have hstep : groupedAllocation (l ++ [a]) tv =
        addItem tv (groupedAllocation l tv) (toItem tv a) := by
      simp [groupedAllocation, allocationData, List.foldl_append]
    rw [hstep, ih]
    by_cases hmem : a.category ∈ catsOf l
    · -- the category already has a bucket: the fold bumps it in place
      have hfind : ((groupBuckets l tv).find? (fun b => b.name == (toItem tv a).name)).isSome := by
        rw [List.find?_isSome]
        exact ⟨mkBucket l tv a.category,
          List.mem_map.mpr ⟨a.category, hmem, rfl⟩,
          by simp [mkBucket_name, toItem_name]⟩
      rw [addItem, if_pos hfind, groupBuckets]
      rw [updateFirst_map (mkBucket l tv) (fun c => rfl) _ _ _ (nodup_catsOf l)
        (by rw [toItem_name]; exact hmem)]
      rw [groupBuckets, catsOf_append_singleton, if_pos hmem]
      apply List.map_congr_left
      intro c' hc'
      by_cases hc : c' = (toItem tv a).name
      · rw [if_pos hc]
        have hcat : a.category = c' := by
          rw [toItem_name] at hc
          exact hc.symm
        simp only [bump, mkBucket, toItem]
        rw [catValue_append_singleton, if_pos hcat,
          catShort_append_of_mem l a c' ((mem_catsOf c' l).mp hc')]
      · rw [if_neg hc]
        have hcat : a.category ≠ c' := fun h => hc (by rw [toItem_name]; exact h.symm)
        simp only [mkBucket]
        rw [catValue_append_singleton, if_neg hcat, add_zero,
          catShort_append_of_mem l a c' ((mem_catsOf c' l).mp hc')]
    · -- a new category: the fold appends a fresh bucket
      have hfind : ¬ ((groupBuckets l tv).find? (fun b => b.name == (toItem tv a).name)).isSome := by
        rw [List.find?_isSome]
        rintro ⟨b, hb, hbn⟩
        obtain ⟨c', hc', rfl⟩ := List.mem_map.mp hb
        simp only [mkBucket_name, toItem_name, beq_iff_eq] at hbn
        exact hmem (hbn ▸ hc')
      rw [addItem, if_neg hfind, groupBuckets, groupBuckets,
        catsOf_append_singleton, if_neg hmem, List.map_append]
      congr 1
      · apply List.map_congr_left
        intro c' hc'
        have hcat : a.category ≠ c' := fun h => hmem (h ▸ hc')
        simp only [mkBucket]
        rw [catValue_append_singleton, if_neg hcat, add_zero,
          catShort_append_of_mem l a c' ((mem_catsOf c' l).mp hc')]
      · simp only [List.map_cons, List.map_nil, mkBucket]
        have hnm : a.category ∉ l.map Asset.category := fun h => hmem ((mem_catsOf _ l).mpr h)
        rw [catValue_append_singleton, catValue_of_not_mem l _ hnm, zero_add, if_pos rfl,
          catShort_append_of_not_mem l a _ hnm, if_pos rfl]
        rfl

/-! ## Consequences of the characterization -/

theorem groupedAllocation_names (assets : List Asset) (tv : ℚ) :
    (groupedAllocation assets tv).map AllocationItem.name = catsOf assets := by
  rw [groupedAllocation_eq_groupBuckets, groupBuckets, List.map_map]
  simp [Function.comp_def, mkBucket_name]

theorem mem_groupedAllocation (assets : List Asset) (tv : ℚ) (b : AllocationItem)
    (hb : b ∈ groupedAllocation assets tv) :
    b.name ∈ catsOf assets ∧ b = mkBucket assets tv b.name := by
  rw [groupedAllocation_eq_groupBuckets, groupBuckets] at hb
  obtain ⟨c, hc, rfl⟩ := List.mem_map.mp hb
  rw [mkBucket_name]
  exact ⟨hc, rfl⟩

theorem catValue_cons (a : Asset) (l : List Asset) (c : String) :
    catValue (a :: l) c = (if a.category = c then a.value else 0) + catValue l c := by
  by_cases h : a.category = c <;> simp [catValue, List.filter_cons, h]

/-- Partition of the total value across any duplicate-free family of
categories covering the list. -/
theorem sum_catValue (cats : List String) (hnd : cats.Nodup) :
    ∀ assets : List Asset, (∀ a ∈ assets, a.category ∈ cats) →
      (cats.map (catValue assets)).sum = (assets.map Asset.value).sum := by
  intro assets
  induction assets with
  | nil =>
    intro _
    simp only [List.map_nil, List.sum_nil]
    apply List.sum_eq_zero
    intro y hy
    obtain ⟨c, -, rfl⟩ := List.mem_map.mp hy
    simp [catValue]
  | cons a rest ih =>
    intro hcov
    have hmap : cats.map (catValue (a :: rest)) =
        cats.map fun c => (if a.category = c then a.value else 0) + catValue rest c := by
      apply List.map_congr_left
      intro c _
      exact catValue_cons a rest c
    rw [hmap, List.sum_map_add, sum_map_indicator a.category a.value cats hnd
      (hcov a (List.mem_cons_self a rest)), ih (fun x hx => hcov x (List.mem_cons_of_mem a hx))]
    simp

/-- The bucket values decompose the aggregate total exactly. -/
theorem sum_groupedAllocation_value (assets : List Asset) (tv : ℚ) :
    ((groupedAllocation assets tv).map AllocationItem.value).sum = totalValueAgg assets := by
  rw [groupedAllocation_eq_groupBuckets, groupBuckets, List.map_map]
  have : (AllocationItem.value ∘ mkBucket assets tv) = catValue assets := rfl
  rw [this, totalValueAgg]
  exact sum_catValue (catsOf assets) (nodup_catsOf assets) assets
    (fun a ha => (mem_catsOf _ assets).mpr (List.mem_map_of_mem Asset.category ha))

theorem find?_beq_self (c : String) :
    ∀ xs : List String, c ∈ xs → xs.find? (fun x => x == c) = some c := by
  intro xs
  induction xs with
  | nil => intro h; cases h
  | cons x xs ih =>
    intro hc
    by_cases hx : x = c
    · subst hx
      simp [List.find?_cons]
    · have hbeq : (x == c) = false := by simp [hx]
      simp only [List.find?_cons, hbeq]
      exact ih ((List.mem_cons.mp hc).resolve_left fun h => hx h.symm)

/-! ## The claims -/

/-- Claim C1. For every asset list, the aggregation engine returns `totalValue`
equal to the sum of `asset.value` over all assets, `totalPerformanceValue`
equal to `sum(asset.value * asset.performance / 100)`, and
`totalPerformancePercent` equal to `totalPerformanceValue / totalValue * 100`
whenever `totalValue > 0` (value-weighted, not an unweighted average).

The aggregation itself is not implemented in the repository (the backend is a
one-route greeting service); it is modelled from the spec as `aggPayload`, and
the theorem states the identities on the view-model the `usePortfolio` hook
(which is source code) exposes when fed that payload — in particular the sums
may equivalently be taken over the hook's (performance-sorted) asset list. -/
theorem C1_aggregation_value_weighted (assets : List Asset) (h : PortfolioHook)
    (hh : h = usePortfolio (some (aggPayload assets))) :
    h.totalValue = (assets.map Asset.value).sum
  ∧ h.totalValue = (h.assets.map Asset.value).sum
  ∧ h.performanceValue = (h.assets.map fun a => a.value * a.performance / 100).sum
  ∧ (0 < h.totalValue →
      h.totalPerformance = h.performanceValue / h.totalValue * 100) := by
  subst hh
  have hassets : (usePortfolio (some (aggPayload assets))).assets =
      assets.insertionSort (fun a b => perfDescB a b = true) := rfl
  have htv : (usePortfolio (some (aggPayload assets))).totalValue =
      totalValueAgg assets := rfl
  have hpv : (usePortfolio (some (aggPayload assets))).performanceValue =
      totalPerformanceValueAgg assets := rfl
  have htp : (usePortfolio (some (aggPayload assets))).totalPerformance =
      totalPerformancePercentAgg assets := rfl
  refine ⟨htv, ?_, ?_, ?_⟩
  · rw [htv, hassets, totalValueAgg]
    exact (List.Perm.sum_eq
      ((List.perm_insertionSort (fun a b => perfDescB a b = true) assets).map
        Asset.value)).symm
  · rw [hpv, hassets, totalPerformanceValueAgg]
    exact (List.Perm.sum_eq
      ((List.perm_insertionSort (fun a b => perfDescB a b = true) assets).map
        fun a => a.value * a.performance / 100)).symm
  · intro hpos
    rw [htv] at hpos
    rw [htp, hpv, htv, totalPerformancePercentAgg, if_pos hpos]

/-- Witness for C1: the spec's Example 1 — assets of values 100 and 300 with
performances 10 and −5 give a positive total, and the percentage identity is
obtained from the theorem there. -/
theorem C1_witness :
    0 < (usePortfolio (some (aggPayload
      [⟨1, "Fund", "stocks", none, 100, 10⟩,
       ⟨2, "Coin", "crypto", none, 300, -5⟩]))).totalValue
  ∧ (usePortfolio (some (aggPayload
      [⟨1, "Fund", "stocks", none, 100, 10⟩,
       ⟨2, "Coin", "crypto", none, 300, -5⟩]))).totalPerformance =
      (usePortfolio (some (aggPayload
        [⟨1, "Fund", "stocks", none, 100, 10⟩,
         ⟨2, "Coin", "crypto", none, 300, -5⟩]))).performanceValue /
      (usePortfolio (some (aggPayload
        [⟨1, "Fund", "stocks", none, 100, 10⟩,
         ⟨2, "Coin", "crypto", none, 300, -5⟩]))).totalValue * 100 :=
  ⟨by with_unfolding_all decide,
   (C1_aggregation_value_weighted
      [⟨1, "Fund", "stocks", none, 100, 10⟩,
       ⟨2, "Coin", "crypto", none, 300, -5⟩] _ rfl).2.2.2
      (by with_unfolding_all decide)⟩

/-- Claim C8. For the empty asset list (`totalValue == 0`) the engine returns
`totalPerformancePercent = 0` as a defined value — the embedding is a total
function, so no division failure can occur — and the allocation buckets are
the empty sequence for any total. -/
theorem C8_empty_asset_list :
    totalValueAgg [] = 0
  ∧ totalPerformancePercentAgg [] = 0
  ∧ (usePortfolio (some (aggPayload []))).totalPerformance = 0
  ∧ (∀ tv : ℚ, groupedAllocation [] tv = [])
  ∧ (∀ tv : ℚ, sortedAllocation [] tv = []) := by
  refine ⟨rfl, ?_, ?_, fun tv => rfl, fun tv => ?_⟩
  · with_unfolding_all rfl
  · with_unfolding_all rfl
  · with_unfolding_all rfl

/-- Claim C10. For every backend response — a missing payload or a payload with
missing fields — the portfolio hook returns totally defined values:
`totalValue`, `totalPerformance` and `performanceValue` default to `0`,
`historicalData` and `assets` default to the empty list.  The hook is embedded
as a total function, so it can neither return an undefined field nor throw. -/
theorem C10_hook_total_defaults :
    usePortfolio none = ⟨[], 0, 0, 0, []⟩
  ∧ (∀ pd : PortfolioData,
      (pd.totalValue = none → (usePortfolio (some pd)).totalValue = 0)
    ∧ (pd.totalPerformance = none → (usePortfolio (some pd)).totalPerformance = 0)
    ∧ (pd.performanceValue = none → (usePortfolio (some pd)).performanceValue = 0)
    ∧ (pd.historicalData = none → (usePortfolio (some pd)).historicalData = [])
    ∧ (pd.assets = none → (usePortfolio (some pd)).assets = [])) := by
  refine ⟨rfl, fun pd => ⟨?_, ?_, ?_, ?_, ?_⟩⟩ <;>
    intro h <;> simp [usePortfolio, orZero, orNil, h]

/-- Witness for C10: the all-missing payload yields the default total value
and the default (empty) asset list. -/
theorem C10_witness :
    (usePortfolio (some ⟨none, none, none, none, none⟩)).totalValue = 0
  ∧ (usePortfolio (some ⟨none, none, none, none, none⟩)).assets = [] :=
  ⟨(C10_hook_total_defaults.2 ⟨none, none, none, none, none⟩).1 rfl,
   (C10_hook_total_defaults.2 ⟨none, none, none, none, none⟩).2.2.2.2 rfl⟩

/-- Claim C2. For every asset list, the allocation grouper emits exactly one
bucket per distinct category present in the input (none for absent
categories), each bucket's value is the full-precision sum of that category's
asset values, each bucket's percentage equals `bucketValue / totalValue * 100`
rounded to one decimal only at the exposed boundary (the value the percentage
is recomputed from is kept at full precision), and the short label defaults
to the first 8 characters of the category when no explicit short form is
supplied. -/
theorem C2_allocation_grouper (assets : List Asset) (tv : ℚ) (htv : 0 < tv) :
    ((groupedAllocation assets tv).map AllocationItem.name).Nodup
  ∧ (∀ c : String, c ∈ (groupedAllocation assets tv).map AllocationItem.name ↔
      c ∈ assets.map Asset.category)
  ∧ (∀ b ∈ groupedAllocation assets tv, b.value = catValue assets b.name)
  ∧ (∀ b ∈ groupedAllocation assets tv, b.percentage = round1 (b.value / tv * 100))
  ∧ (∀ b ∈ groupedAllocation assets tv,
      (∀ a ∈ assets, a.category = b.name →
        a.categoryShort = none ∨ a.categoryShort = some "") →
      b.shortName = substring8 b.name) := by
  refine ⟨?_, ?_, ?_, ?_, ?_⟩
  · rw [groupedAllocation_names]
    exact nodup_catsOf assets
  · intro c
    rw [groupedAllocation_names]
    exact mem_catsOf c assets
  · intro b hb
    obtain ⟨-, hbe⟩ := mem_groupedAllocation assets tv b hb
    rw [hbe]
    rfl
  · intro b hb
    obtain ⟨-, hbe⟩ := mem_groupedAllocation assets tv b hb
    rw [hbe]
    rfl
  · intro b hb hshort
    obtain ⟨hmem, hbe⟩ := mem_groupedAllocation assets tv b hb
    have hname : b.name ∈ assets.map Asset.category := (mem_catsOf _ assets).mp hmem
    have hsome : (assets.find? (fun a => a.category == b.name)).isSome := by
      rw [List.find?_isSome]
      obtain ⟨x, hx, hxc⟩ := List.mem_map.mp hname
      exact ⟨x, hx, by simp [hxc]⟩
    obtain ⟨x, hx⟩ := Option.isSome_iff_exists.mp hsome
    have hxmem : x ∈ assets := List.mem_of_find?_eq_some hx
    have hxcat : x.category = b.name := by simpa using List.find?_some hx
    have hshrt : b.shortName = catShort assets b.name := by
      rw [hbe]
      rfl
    rw [hshrt]
    simp only [catShort, hx]
    rcases hshort x hxmem hxcat with hnone | hempty
    · simp [itemShort, hnone, hxcat]
    · simp [itemShort, hempty, hxcat]

/-- Witness for C2: a positive total, with the bucket names of a concrete
two-category list duplicate-free by the theorem. -/
theorem C2_witness :
    ((groupedAllocation
      [⟨1, "Fund", "stocks", none, 100, 10⟩,
       ⟨2, "Coin", "crypto", none, 300, -5⟩] 400).map AllocationItem.name).Nodup :=
  (C2_allocation_grouper
    [⟨1, "Fund", "stocks", none, 100, 10⟩,
     ⟨2, "Coin", "crypto", none, 300, -5⟩] 400 (by norm_num)).1

/-- Claim C5. For every asset list, the bucket values sum exactly to the
aggregate total value (the spec-modelled `totalValue`), and when that total is
positive the bucket percentages sum to `100` up to the `toFixed(1)` rounding
tolerance of `1/20` per bucket. -/
theorem C5_bucket_sums (assets : List Asset) :
    (∀ tv : ℚ,
      ((groupedAllocation assets tv).map AllocationItem.value).sum = totalValueAgg assets)
  ∧ (0 < totalValueAgg assets →
      |((groupedAllocation assets (totalValueAgg assets)).map
          AllocationItem.percentage).sum - 100|
        ≤ ((groupedAllocation assets (totalValueAgg assets)).length : ℚ) * (1 / 20)) := by
  constructor
  · exact fun tv => sum_groupedAllocation_value assets tv
  · intro hpos
    have hmap : (groupedAllocation assets (totalValueAgg assets)).map
        AllocationItem.percentage =
        ((catsOf assets).map
          (fun c => catValue assets c / totalValueAgg assets * 100)).map round1 := by
      rw [groupedAllocation_eq_groupBuckets, groupBuckets, List.map_map, List.map_map]
      rfl
    have hsum_exact : ((catsOf assets).map
        (fun c => catValue assets c / totalValueAgg assets * 100)).sum = 100 := by
      have h1 : (catsOf assets).map
          (fun c => catValue assets c / totalValueAgg assets * 100) =
          ((catsOf assets).map (catValue assets)).map
            (fun y => y / totalValueAgg assets * 100) := by
        rw [List.map_map]
        rfl
      rw [h1, sum_map_div_mul,
        sum_catValue (catsOf assets) (nodup_catsOf assets) assets
          (fun a ha => (mem_catsOf _ assets).mpr (List.mem_map_of_mem Asset.category ha))]
      rw [show (assets.map Asset.value).sum = totalValueAgg assets from rfl]
      rw [div_self (ne_of_gt hpos), one_mul]
    have herr := sum_map_round1_err
      ((catsOf assets).map (fun c => catValue assets c / totalValueAgg assets * 100))
    rw [hsum_exact, List.length_map] at herr
    have hlen : (groupedAllocation assets (totalValueAgg assets)).length =
        (catsOf assets).length := by
      rw [groupedAllocation_eq_groupBuckets, groupBuckets, List.length_map]
    rw [hmap, hlen]
    exact herr

/-- Witness for C5: a concrete two-asset list with positive total; the
percentage-sum bound is obtained from the theorem there. -/
theorem C5_witness :
    |((groupedAllocation
        [⟨1, "Fund", "stocks", none, 100, 10⟩,
         ⟨2, "Coin", "crypto", none, 300, -5⟩]
        (totalValueAgg
          [⟨1, "Fund", "stocks", none, 100, 10⟩,
           ⟨2, "Coin", "crypto", none, 300, -5⟩])).map
        AllocationItem.percentage).sum - 100|
      ≤ ((groupedAllocation
        [⟨1, "Fund", "stocks", none, 100, 10⟩,
         ⟨2, "Coin", "crypto", none, 300, -5⟩]
        (totalValueAgg
          [⟨1, "Fund", "stocks", none, 100, 10⟩,
           ⟨2, "Coin", "crypto", none, 300, -5⟩])).length : ℚ) * (1 / 20) :=
  (C5_bucket_sums
    [⟨1, "Fund", "stocks", none, 100, 10⟩,
     ⟨2, "Coin", "crypto", none, 300, -5⟩]).2 (by with_unfolding_all decide)

/-- Claim C6. For every asset list and every category present in it, filtering
the list to that category (the grid's `filteredAssets`) and summing the
filtered values yields exactly the value of that category's allocation bucket
(the one `find?` locates by name). -/
theorem C6_filter_sum_eq_bucket_value (assets : List Asset) (tv : ℚ) (c : String)
    (hc : c ∈ assets.map Asset.category) (hall : c ≠ "all") :
    ∃ b, (groupedAllocation assets tv).find? (fun b => b.name == c) = some b ∧
      ((filteredAssets c assets).map Asset.value).sum = b.value := by
  refine ⟨mkBucket assets tv c, ?_, ?_⟩
  · rw [groupedAllocation_eq_groupBuckets, groupBuckets, List.find?_map]
    have hcomp : ((fun b : AllocationItem => b.name == c) ∘ mkBucket assets tv) =
        fun x => x == c := rfl
    rw [hcomp, find?_beq_self c (catsOf assets) ((mem_catsOf c assets).mpr hc)]
    rfl
  · have hfil : filteredAssets c assets = assets.filter (fun a => a.category == c) := by
      apply List.filter_congr
      intro a ha
      have hne : (c == "all") = false := by simp [hall]
      simp [hne]
    rw [hfil]
    rfl

/-- Witness for C6: category `"stocks"` of a concrete list is present and is
not the `"all"` token. -/
theorem C6_witness :
    ∃ b, (groupedAllocation
        [⟨1, "Fund", "stocks", none, 100, 10⟩,
         ⟨2, "Coin", "crypto", none, 300, -5⟩] 400).find?
        (fun b => b.name == "stocks") = some b ∧
      ((filteredAssets "stocks"
        [⟨1, "Fund", "stocks", none, 100, 10⟩,
         ⟨2, "Coin", "crypto", none, 300, -5⟩]).map Asset.value).sum = b.value :=
  C6_filter_sum_eq_bucket_value
    [⟨1, "Fund", "stocks", none, 100, 10⟩,
     ⟨2, "Coin", "crypto", none, 300, -5⟩] 400 "stocks" (by decide) (by decide)

/-- Claim C3. For every asset list and every sort key in
`{performance, value, name}`, the ranking engine returns a new sequence (the
embedding is pure, and the output is a permutation of the input, which is left
untouched), sorted descending by performance or value, or ascending under the
locale-aware name comparison; ties preserve the original relative order
(stability, stated both as preservation of comparator-sorted sublists and for
equal-key pairs), hence re-sorting an already-sorted list yields an identical
order. -/
theorem C3_ranking_engine (key : String)
    (hkey : key = "performance" ∨ key = "value" ∨ key = "name") (l : List Asset) :
    (sortedAssets key l).Perm l
  ∧ (sortedAssets key l).Pairwise (fun a b => sortLeB key a b = true)
  ∧ (key = "performance" →
      (sortedAssets key l).Pairwise (fun a b => b.performance ≤ a.performance))
  ∧ (key = "value" → (sortedAssets key l).Pairwise (fun a b => b.value ≤ a.value))
  ∧ (key = "name" →
      (sortedAssets key l).Pairwise (fun a b => localeCompare a.name b.name ≤ 0))
  ∧ (∀ c : List Asset, c.Pairwise (fun a b => sortLeB key a b = true) → c <+ l →
      c <+ sortedAssets key l)
  ∧ (key = "performance" → ∀ a b : Asset, a.performance = b.performance →
      [a, b] <+ l → [a, b] <+ sortedAssets key l)
  ∧ (key = "value" → ∀ a b : Asset, a.value = b.value →
      [a, b] <+ l → [a, b] <+ sortedAssets key l)
  ∧ sortedAssets key (sortedAssets key l) = sortedAssets key l := by
  haveI : IsTrans Asset (fun a b => sortLeB key a b = true) := ⟨sortLeB_trans key⟩
  haveI : IsTotal Asset (fun a b => sortLeB key a b = true) := ⟨sortLeB_total key⟩
  have hsorted : (sortedAssets key l).Pairwise (fun a b => sortLeB key a b = true) :=
    List.sorted_insertionSort _ l
  refine ⟨List.perm_insertionSort _ l, hsorted, ?_, ?_, ?_, ?_, ?_, ?_, ?_⟩
  · rintro rfl
    exact hsorted.imp (fun h => by simpa [sortLeB] using h)
  · rintro rfl
    exact hsorted.imp (fun h => by simpa [sortLeB] using h)
  · rintro rfl
    exact hsorted.imp (fun h => by simpa [sortLeB] using h)
  · intro c hc hsub
    exact List.sublist_insertionSort hc hsub
  · rintro rfl
    intro a b hperf hsub
    exact List.pair_sublist_insertionSort (by simp [sortLeB, hperf]) hsub
  · rintro rfl
    intro a b hval hsub
    exact List.pair_sublist_insertionSort (by simp [sortLeB, hval]) hsub
  · exact List.Sorted.insertionSort_eq hsorted

/-- Witness for C3: sorting a concrete list by `"value"` is idempotent, by the
theorem applied there. -/
theorem C3_witness :
    sortedAssets "value" (sortedAssets "value"
      [⟨1, "Fund", "stocks", none, 100, 10⟩, ⟨2, "Coin", "crypto", none, 300, -5⟩]) =
    sortedAssets "value"
      [⟨1, "Fund", "stocks", none, 100, 10⟩, ⟨2, "Coin", "crypto", none, 300, -5⟩] :=
  (C3_ranking_engine "value" (Or.inr (Or.inl rfl))
    [⟨1, "Fund", "stocks", none, 100, 10⟩,
     ⟨2, "Coin", "crypto", none, 300, -5⟩]).2.2.2.2.2.2.2.2

/-- Claim C9. For every fetched payload carrying an asset list, the hook's
exposed `assets` sequence is a permutation of that list sorted in descending
performance order, with equal-performance assets kept in their original
relative order; the hook takes no sort key, so this holds regardless of any
key the consumer later selects for its own views. -/
theorem C9_hook_performance_sorted (pd : PortfolioData) (l : List Asset)
    (h : pd.assets = some l) :
    (usePortfolio (some pd)).assets.Perm l
  ∧ (usePortfolio (some pd)).assets.Pairwise (fun a b => b.performance ≤ a.performance)
  ∧ (∀ a b : Asset, a.performance = b.performance → [a, b] <+ l →
      [a, b] <+ (usePortfolio (some pd)).assets) := by
  have hassets : (usePortfolio (some pd)).assets =
      l.insertionSort (fun a b => perfDescB a b = true) := by
    simp [usePortfolio, h]
  haveI : IsTrans Asset (fun a b => perfDescB a b = true) := ⟨perfDescB_trans⟩
  haveI : IsTotal Asset (fun a b => perfDescB a b = true) := ⟨perfDescB_total⟩
  rw [hassets]
  refine ⟨List.perm_insertionSort _ l, ?_, ?_⟩
  · exact (List.sorted_insertionSort _ l).imp (fun h => by simpa [perfDescB] using h)
  · intro a b hperf hsub
    exact List.pair_sublist_insertionSort (by simp [perfDescB, hperf]) hsub

/-- Witness for C9: a concrete payload whose asset list the hook re-exposes as
a (sorted) permutation. -/
theorem C9_witness :
    (usePortfolio (some ⟨none, none, none, none, some
      [⟨1, "Fund", "stocks", none, 100, 10⟩,
       ⟨2, "Coin", "crypto", none, 300, -5⟩]⟩)).assets.Perm
      [⟨1, "Fund", "stocks", none, 100, 10⟩,
       ⟨2, "Coin", "crypto", none, 300, -5⟩] :=
  (C9_hook_performance_sorted _
    [⟨1, "Fund", "stocks", none, 100, 10⟩,
     ⟨2, "Coin", "crypto", none, 300, -5⟩] rfl).1

/-- Claim C4, counterexample. The claim says value ties among allocation buckets
are broken by category name in a fixed lexical order.  The source sorts with
`(a, b) => b.value - a.value` only — a stable sort — so tied buckets keep
their first-appearance order instead.  Concretely: two equal-valued
categories, `"beta"` first in the input, are emitted as `["beta", "alpha"]`,
although `"alpha"` precedes `"beta"` in every lexical order (their code-point
sequences compare strictly). -/
theorem C4_counterexample :
    ((sortedAllocation
      [⟨1, "B", "beta", none, 1, 0⟩, ⟨2, "A", "alpha", none, 1, 0⟩] 2).map
        ColoredBucket.name = ["beta", "alpha"])
  ∧ (∀ b ∈ sortedAllocation
      [⟨1, "B", "beta", none, 1, 0⟩, ⟨2, "A", "alpha", none, 1, 0⟩] 2, b.value = 1)
  ∧ lexLt "alpha".data "beta".data = true := by
  refine ⟨?_, ?_, ?_⟩ <;> with_unfolding_all decide

/-- Claim C4, amended. For every asset list, the allocation buckets are sorted
by descending value with ties preserving the categories' first-appearance
order in the input (the sort is stable; ties are *not* re-ordered
lexically), and each bucket's color is the palette entry at its 0-based rank
modulo the palette size. -/
theorem C4_allocation_rank_colors (assets : List Asset) (tv : ℚ) :
    (sortedBuckets assets tv).Pairwise (fun x y => y.value ≤ x.value)
  ∧ (sortedBuckets assets tv).Perm (groupedAllocation assets tv)
  ∧ (∀ b₁ b₂ : AllocationItem, b₁.value = b₂.value →
      [b₁, b₂] <+ groupedAllocation assets tv → [b₁, b₂] <+ sortedBuckets assets tv)
  ∧ (∀ i (hi : i < (sortedAllocation assets tv).length),
      ((sortedAllocation assets tv).get ⟨i, hi⟩).color =
        allocationColors.getD (i % allocationColors.length) "bg-blue-500")
  ∧ ((sortedAllocation assets tv).map
      (fun b => (b.name, b.shortName, b.value, b.percentage)) =
     (sortedBuckets assets tv).map
      (fun b => (b.name, b.shortName, b.value, b.percentage))) := by
  haveI : IsTrans AllocationItem (fun a b => valueDescB a b = true) := ⟨valueDescB_trans⟩
  haveI : IsTotal AllocationItem (fun a b => valueDescB a b = true) := ⟨valueDescB_total⟩
  refine ⟨?_, ?_, ?_, ?_, ?_⟩
  · exact (List.sorted_insertionSort _ _).imp (fun h => by simpa [valueDescB] using h)
  · exact List.perm_insertionSort _ _
  · intro b₁ b₂ hval hsub
    exact List.pair_sublist_insertionSort (by simp [valueDescB, hval]) hsub
  · intro i hi
    rw [List.get_eq_getElem]
    simp [sortedAllocation, List.getElem_mapIdx, getAllocationColor]
  · apply List.ext_getElem
    · simp [sortedAllocation]
    · intro i h1 h2
      simp [sortedAllocation, List.getElem_mapIdx]

/-- Witness for C4 (amended): the second bucket of a concrete two-category
list carries the palette color of rank 1, by the theorem applied there. -/
theorem C4_witness :
    ((sortedAllocation
      [⟨1, "Fund", "stocks", none, 100, 10⟩,
       ⟨2, "Coin", "crypto", none, 300, -5⟩] 400).get
        ⟨1, by with_unfolding_all decide⟩).color =
      allocationColors.getD (1 % allocationColors.length) "bg-blue-500" :=
  (C4_allocation_rank_colors
    [⟨1, "Fund", "stocks", none, 100, 10⟩,
     ⟨2, "Coin", "crypto", none, 300, -5⟩] 400).2.2.2.1 1
    (by with_unfolding_all decide)

/-- Claim C7, counterexample. The claim says out-of-set period tokens, sort keys
and category filters fail fast with typed errors (`InvalidPeriod`,
`InvalidSortKey`, `InvalidCategoryFilter`) and no view is produced.  The
source has no error path at all: with the out-of-set sort key `"5y-bogus"`
the comparator's `default` branch returns `0` and the complete asset list is
returned unchanged; with the out-of-set category `"bonds"` the filter quietly
returns the empty list; an out-of-set period is interpolated into the fetch
URL without validation.  A full (non-error) result is produced in each
case. -/
theorem C7_counterexample :
    sortedAssets "5y-bogus"
      [⟨1, "Fund", "stocks", none, 1, 2⟩, ⟨2, "Coin", "crypto", none, 3, 4⟩] =
      [⟨1, "Fund", "stocks", none, 1, 2⟩, ⟨2, "Coin", "crypto", none, 3, 4⟩]
  ∧ filteredAssets "bonds" [⟨1, "Fund", "stocks", none, 1, 2⟩] = []
  ∧ portfolioRequestUrl "5y" = "/portfolio?period=5y" := by
  refine ⟨?_, ?_, ?_⟩ <;> with_unfolding_all decide

/-- Claim C7, amended. For every input token outside its closed set the engine
does **not** fail: an out-of-set sort key leaves the working list's order
unchanged (the comparator returns `0` everywhere and the stable sort is the
identity), an out-of-set category filter yields the empty working set, and an
out-of-set period token is forwarded verbatim in the fetch URL; no typed
error value exists anywhere in the pipeline and a complete view is always
produced. -/
theorem C7_no_fail_fast (key : String)
    (hkey : key ≠ "performance" ∧ key ≠ "value" ∧ key ≠ "name")
    (l : List Asset) (cat : String)
    (hcat : cat ≠ "all" ∧ cat ∉ l.map Asset.category) (period : String) :
    sortedAssets key l = l
  ∧ filteredAssets cat l = []
  ∧ portfolioRequestUrl period = "/portfolio?period=" ++ period := by
  obtain ⟨h1, h2, h3⟩ := hkey
  refine ⟨?_, ?_, rfl⟩
  · have hall : ∀ a b : Asset, sortLeB key a b = true := by
      intro a b
      simp [sortLeB, h1, h2, h3]
    exact List.Sorted.insertionSort_eq (List.pairwise_of_forall hall)
  · rw [filteredAssets, List.filter_eq_nil_iff]
    intro a ha
    have hne : (cat == "all") = false := by simp [hcat.1]
    have hne2 : (a.category == cat) = false := by
      simp only [beq_eq_false_iff_ne, ne_eq]
      intro hq
      exact hcat.2 (List.mem_map.mpr ⟨a, ha, hq⟩)
    simp [hne, hne2]

/-- Witness for C7 (amended): the out-of-set key `"foo"` leaves a concrete
singleton list unchanged, by the theorem applied there. -/
theorem C7_witness :
    sortedAssets "foo" [⟨1, "Fund", "stocks", none, 5, 6⟩] =
      [⟨1, "Fund", "stocks", none, 5, 6⟩] :=
  (C7_no_fail_fast "foo" ⟨by decide, by decide, by decide⟩
    [⟨1, "Fund", "stocks", none, 5, 6⟩] "weird"
    ⟨by decide, by with_unfolding_all decide⟩ "1w").1

end Patrimo
